import Mathlib

/-!
Verification of the equivalent-width estimator in the Balmer-decrement
notebook (cells 14 to 16 of Balmer_Decrement_Tutorial.ipynb).

The notebook computes, from a wavelength array and a flux array:
  restwave      = wave / (1 + z),  z = 0.05217
  iwave_noline  = (4800 < restwave < 4858) or (4865 < restwave < 4900)
  cs            = CubicSpline(restwave[iwave_noline], flux[iwave_noline])
  iwave_lineonly = (4850 < restwave < 4870)
  linesub       = flux[iwave_lineonly] - cs(restwave[iwave_lineonly])
  ew            = trapz(linesub / cs(restwave[iwave_lineonly]),
                        x = restwave[iwave_lineonly])

Rational numbers stand in for floats; a result of `none` stands for a
non-finite float value (inf or nan, produced by numpy division by zero and
propagated through the trapezoid sum); `Except.error` stands for a raised
Python exception (IndexError from boolean-mask length mismatch, ValueError
from CubicSpline input validation).

Arithmetic inside the executable definitions uses the helper operations
qadd, qsub, qmul, qdiv built from `mkRat` so that every concrete run
reduces inside the kernel; the lemmas qadd_eq, qsub_eq, qmul_eq, qdiv_eq
identify them with the field operations of ℚ.
-/

namespace SNDust

/-- Addition on ℚ, written with mkRat so the kernel can evaluate it. -/
def qadd (a b : ℚ) : ℚ := mkRat (a.num * b.den + b.num * a.den) (a.den * b.den)

/-- Subtraction on ℚ, written with mkRat so the kernel can evaluate it. -/
def qsub (a b : ℚ) : ℚ := mkRat (a.num * b.den - b.num * a.den) (a.den * b.den)

/-- Multiplication on ℚ, written with mkRat so the kernel can evaluate it. -/
def qmul (a b : ℚ) : ℚ := mkRat (a.num * b.num) (a.den * b.den)

/-- Inverse on ℚ (with inverse of 0 equal to 0), kernel-evaluable. -/
def qinv (a : ℚ) : ℚ :=
  if 0 ≤ a.num then mkRat a.den a.num.natAbs else mkRat (-(a.den : Int)) a.num.natAbs

/-- Division on ℚ (with division by 0 equal to 0), kernel-evaluable. -/
def qdiv (a b : ℚ) : ℚ := qmul a (qinv b)

/-- The redshift used by the notebook, z = 0.05217. -/
def zshift : ℚ := mkRat 5217 100000

/-- The continuum-window mask iwave_noline of cell 15:
(4800 < w < 4858) or (4865 < w < 4900), on rest wavelengths. -/
def noline (w : ℚ) : Bool :=
  (decide (4800 < w) && decide (w < 4858)) || (decide (4865 < w) && decide (w < 4900))

/-- The line-window mask iwave_lineonly of cell 16: 4850 < w < 4870. -/
def lineonly (w : ℚ) : Bool :=
  decide (4850 < w) && decide (w < 4870)

/-- Strictly increasing test on a list of rationals (the validation that
scipy CubicSpline performs on its x array). -/
def sIncr : List ℚ → Bool
  | a :: b :: rest => decide (a < b) && sIncr (b :: rest)
  | _ => true

/-- Apply f to each pair of consecutive elements (like numpy diff). -/
def consec (f : α → α → β) : List α → List β
  | a :: b :: rest => f a b :: consec f (b :: rest)
  | _ => []

/-- One row of a tridiagonal system: sub-diagonal a, diagonal b,
super-diagonal c, right-hand side d. -/
structure TriRow where
  a : ℚ
  b : ℚ
  c : ℚ
  d : ℚ
deriving DecidableEq

/-- Forward elimination of the Thomas algorithm; pc and pd carry the
modified super-diagonal and right-hand side of the previous row. -/
def thomasFwd (pc pd : ℚ) : List TriRow → List (ℚ × ℚ)
  | [] => []
  | r :: rest =>
      let p := qsub r.b (qmul r.a pc)
      let c2 := qdiv r.c p
      let d2 := qdiv (qsub r.d (qmul r.a pd)) p
      (c2, d2) :: thomasFwd c2 d2 rest

/-- Back substitution of the Thomas algorithm (the head of the recursive
result is the next unknown; for the last row the headD default 0
contributes nothing). -/
def thomasBwd : List (ℚ × ℚ) → List ℚ
  | [] => []
  | e :: rest => qsub e.2 (qmul e.1 ((thomasBwd rest).headD 0)) :: thomasBwd rest

/-- Tridiagonal solver (Thomas algorithm), as used by solve_banded. -/
def thomasSolve (rows : List TriRow) : List ℚ := thomasBwd (thomasFwd 0 0 rows)

/-- 3x3 determinant by cofactor expansion along the first row. -/
def det3 (a b c d e f g h i : ℚ) : ℚ :=
  qsub (qadd (qmul a (qsub (qmul e i) (qmul f h)))
             (qmul c (qsub (qmul d h) (qmul e g))))
       (qmul b (qsub (qmul d i) (qmul f g)))

/-- Solve a 3x3 linear system by Cramer's rule (rows a b c / d e f / g h i,
right-hand side r1 r2 r3). -/
def cramer3 (a b c d e f g h i r1 r2 r3 : ℚ) : List ℚ :=
  [qdiv (det3 r1 b c r2 e f r3 h i) (det3 a b c d e f g h i),
   qdiv (det3 a r1 c d r2 f g r3 i) (det3 a b c d e f g h i),
   qdiv (det3 a b r1 d e r2 g h r3) (det3 a b c d e f g h i)]

/-- Knot spacings h of a node list. -/
def hsOf (nodes : List (ℚ × ℚ)) : List ℚ := consec (fun p q => qsub q.1 p.1) nodes

/-- Consecutive slopes (divided differences) of a node list. -/
def slopesOf (nodes : List (ℚ × ℚ)) : List ℚ :=
  consec (fun p q => qdiv (qsub q.2 p.2) (qsub q.1 p.1)) nodes

/-- Modelled from the spec: first row of the not-a-knot system solved by
scipy CubicSpline (the library code is not part of this repository); the
spec asks for a piecewise-cubic interpolant with continuous first
derivative, and scipy's documented default boundary condition is
not-a-knot.  Diagonal h1, super-diagonal (h0+h1), right-hand side
((h0 + 2*(h0+h1))*h1*s0 + h0^2*s1) / (h0+h1). -/
def bRow1 (h0 h1 s0 s1 : ℚ) : TriRow :=
  { a := 0, b := h1, c := qadd h0 h1,
    d := qdiv (qadd (qmul (qmul (qadd h0 (qmul 2 (qadd h0 h1))) h1) s0)
                    (qmul (qmul h0 h0) s1))
              (qadd h0 h1) }

/-- Modelled from the spec: last row of the not-a-knot system (see bRow1).
Sub-diagonal (hm2+hm1), diagonal hm2, right-hand side
(hm1^2*sm2 + (2*(hm2+hm1) + hm1)*hm2*sm1) / (hm2+hm1). -/
def bRowN (hm2 hm1 sm2 sm1 : ℚ) : TriRow :=
  { a := qadd hm2 hm1, b := hm2, c := 0,
    d := qdiv (qadd (qmul (qmul hm1 hm1) sm2)
                    (qmul (qmul (qadd (qmul 2 (qadd hm2 hm1)) hm1) hm2) sm1))
              (qadd hm2 hm1) }

/-- Interior row i of the spline system, built from (h(i-1), slope(i-1))
and (h(i), slope(i)): derivative continuity of the cubic pieces. -/
def midRow (p q : ℚ × ℚ) : TriRow :=
  { a := q.1, b := qmul 2 (qadd p.1 q.1), c := p.1,
    d := qmul 3 (qadd (qmul q.1 p.2) (qmul p.1 q.2)) }

/-- The banded system for the first derivatives s of the not-a-knot cubic
spline through at least four nodes. -/
def mkRows (nodes : List (ℚ × ℚ)) : List TriRow :=
  bRow1 ((hsOf nodes).getD 0 0) ((hsOf nodes).getD 1 0)
        ((slopesOf nodes).getD 0 0) ((slopesOf nodes).getD 1 0) ::
    (consec midRow ((hsOf nodes).zip (slopesOf nodes)) ++
      [bRowN ((hsOf nodes).reverse.getD 1 0) ((hsOf nodes).reverse.getD 0 0)
             ((slopesOf nodes).reverse.getD 1 0) ((slopesOf nodes).reverse.getD 0 0)])

/-- Modelled from the spec: the derivative values s(i) of the interpolant
at the nodes, case split exactly as scipy CubicSpline does it: two nodes
give the straight line, three nodes the interpolating parabola, four or
more nodes the not-a-knot banded system. -/
def solveS : List (ℚ × ℚ) → List ℚ
  | [] => []
  | [_] => [0]
  | [p, q] =>
      [qdiv (qsub q.2 p.2) (qsub q.1 p.1), qdiv (qsub q.2 p.2) (qsub q.1 p.1)]
  | [p, q, r] =>
      cramer3 1 1 0
        (qsub r.1 q.1) (qmul 2 (qadd (qsub q.1 p.1) (qsub r.1 q.1))) (qsub q.1 p.1)
        0 1 1
        (qmul 2 (qdiv (qsub q.2 p.2) (qsub q.1 p.1)))
        (qmul 3 (qadd (qmul (qsub r.1 q.1) (qdiv (qsub q.2 p.2) (qsub q.1 p.1)))
                      (qmul (qsub q.1 p.1) (qdiv (qsub r.2 q.2) (qsub r.1 q.1)))))
        (qmul 2 (qdiv (qsub r.2 q.2) (qsub r.1 q.1)))
  | p :: q :: r :: s :: rest => thomasSolve (mkRows (p :: q :: r :: s :: rest))

/-- One polynomial piece of the spline: value
c3 + c2*(x-xl) + c1*(x-xl)^2 + c0*(x-xl)^3 on its interval. -/
structure Piece where
  xl : ℚ
  c0 : ℚ
  c1 : ℚ
  c2 : ℚ
  c3 : ℚ
deriving DecidableEq

/-- Coefficients of the cubic piece between two nodes with derivative
values, exactly the coefficient formulas of scipy CubicSpline:
t = (s0 + s1 - 2*slope)/dx, c0 = t/dx, c1 = (slope - s0)/dx - t,
c2 = s0, c3 = y0. -/
def mkPiece (t u : ℚ × ℚ × ℚ) : Piece :=
  { xl := t.1,
    c0 := qdiv (qdiv (qsub (qadd t.2.2 u.2.2)
                           (qmul 2 (qdiv (qsub u.2.1 t.2.1) (qsub u.1 t.1))))
                     (qsub u.1 t.1))
               (qsub u.1 t.1),
    c1 := qsub (qdiv (qsub (qdiv (qsub u.2.1 t.2.1) (qsub u.1 t.1)) t.2.2)
                     (qsub u.1 t.1))
               (qdiv (qsub (qadd t.2.2 u.2.2)
                           (qmul 2 (qdiv (qsub u.2.1 t.2.1) (qsub u.1 t.1))))
                     (qsub u.1 t.1)),
    c2 := t.2.2, c3 := t.2.1 }

/-- The pieces between consecutive nodes. -/
def mkPieces : List (ℚ × ℚ × ℚ) → List Piece
  | t :: u :: rest => mkPiece t u :: mkPieces (u :: rest)
  | _ => []

/-- Pair each node with its derivative value. -/
def attachS : List (ℚ × ℚ) → List ℚ → List (ℚ × ℚ × ℚ)
  | p :: ps, v :: vs => (p.1, p.2, v) :: attachS ps vs
  | _, _ => []

/-- Modelled from the spec: the cubic-spline interpolant cs of cell 15
(scipy CubicSpline with its default not-a-knot boundary), as the list of
its polynomial pieces. -/
def buildSpline (nodes : List (ℚ × ℚ)) : List Piece :=
  mkPieces (attachS nodes (solveS nodes))

/-- Value of one piece at x. -/
def evalPiece (p : Piece) (x : ℚ) : ℚ :=
  qadd (qadd (qadd p.c3 (qmul p.c2 (qsub x p.xl)))
             (qmul p.c1 (qmul (qsub x p.xl) (qsub x p.xl))))
       (qmul p.c0 (qmul (qsub x p.xl) (qmul (qsub x p.xl) (qsub x p.xl))))

/-- Select the piece whose interval contains x: the last piece whose left
endpoint is at most x, clamped to the first and last piece outside the
knot range (scipy PPoly evaluation, which extrapolates). -/
def findPiece : List Piece → ℚ → Piece
  | [], _ => { xl := 0, c0 := 0, c1 := 0, c2 := 0, c3 := 0 }
  | [p], _ => p
  | p :: q :: rest, x => if x < q.xl then p else findPiece (q :: rest) x

/-- Evaluate the spline at x. -/
def splineEval (ps : List Piece) (x : ℚ) : ℚ := evalPiece (findPiece ps x) x

/-- numpy elementwise division: a zero divisor yields a non-finite value,
modelled as none; no exception is raised. -/
def safeDiv (a b : ℚ) : Option ℚ := if b = 0 then none else some (qdiv a b)

/-- np.trapz over sample points whose values may be non-finite (none); a
non-finite value that enters the sum makes the result non-finite, a list
of fewer than two points has an empty diff and integrates to 0. -/
def trapzOpt : List (ℚ × Option ℚ) → Option ℚ
  | (x1, y1) :: (x2, y2) :: rest =>
      Option.bind y1 (fun v1 => Option.bind y2 (fun v2 =>
        Option.bind (trapzOpt ((x2, y2) :: rest)) (fun r =>
          some (qadd (qmul (qdiv (qadd v1 v2) 2) (qsub x2 x1)) r))))
  | _ => some 0

/-- np.trapz over finite sample values (x paired with y). -/
def trapzQ : List (ℚ × ℚ) → ℚ
  | (x1, y1) :: (x2, y2) :: rest =>
      qadd (qmul (qdiv (qadd y1 y2) 2) (qsub x2 x1)) (trapzQ ((x2, y2) :: rest))
  | _ => 0

/-- The Python exceptions the notebook pipeline can raise: IndexError from
indexing flux with a boolean mask of a different length, ValueError from
CubicSpline when it gets fewer than two points or a non-increasing x. -/
inductive Err
  | lengthMismatch
  | tooFewPoints
  | notIncreasing
deriving DecidableEq

instance : DecidableEq (Except Err (Option ℚ)) := fun a b =>
  match a, b with
  | Except.error x, Except.error y =>
      if h : x = y then Decidable.isTrue (congrArg Except.error h)
      else Decidable.isFalse (fun hc => h (by injection hc))
  | Except.ok x, Except.ok y =>
      if h : x = y then Decidable.isTrue (congrArg Except.ok h)
      else Decidable.isFalse (fun hc => h (by injection hc))
  | Except.error _, Except.ok _ => Decidable.isFalse (fun hc => by injection hc)
  | Except.ok _, Except.error _ => Decidable.isFalse (fun hc => by injection hc)

/-- restwave = wave / (1 + z) of cell 14. -/
def restOf (wave : List ℚ) : List ℚ := wave.map (fun w => qdiv w (qadd 1 zshift))

/-- The (rest wavelength, flux) sample pairs of the spectrum. -/
def pairsOf (wave flux : List ℚ) : List (ℚ × ℚ) := (restOf wave).zip flux

/-- The samples selected by the continuum mask iwave_noline. -/
def contSamples (wave flux : List ℚ) : List (ℚ × ℚ) :=
  (pairsOf wave flux).filter (fun p => noline p.1)

/-- The samples selected by the line mask iwave_lineonly. -/
def lineSamples (wave flux : List ℚ) : List (ℚ × ℚ) :=
  (pairsOf wave flux).filter (fun p => lineonly p.1)

/-- The continuum spline cs of cell 15. -/
def theSpline (wave flux : List ℚ) : List Piece := buildSpline (contSamples wave flux)

/-- The full pipeline of cells 14 to 16: returns the raised exception, or
the value of ew (none standing for a non-finite float). -/
def ew_compute (wave flux : List ℚ) : Except Err (Option ℚ) :=
  if wave.length = flux.length then
    if 2 ≤ (contSamples wave flux).length then
      if sIncr ((contSamples wave flux).map Prod.fst) then
        Except.ok (trapzOpt ((lineSamples wave flux).map (fun p =>
          (p.1, safeDiv (qsub p.2 (splineEval (theSpline wave flux) p.1))
                        (splineEval (theSpline wave flux) p.1)))))
      else Except.error Err.notIncreasing
    else Except.error Err.tooFewPoints
  else Except.error Err.lengthMismatch

/-- The specification formula for the equivalent width, written with the
field operations of ℚ as in the spec text: the trapezoidal integral, over
the samples in the line window, of (flux - continuum)/continuum with the
continuum spline fitted through the continuum-window samples. -/
def ew_formula (wave flux : List ℚ) : ℚ :=
  trapzQ ((lineSamples wave flux).map (fun p =>
    (p.1, (p.2 - splineEval (theSpline wave flux) p.1) /
          splineEval (theSpline wave flux) p.1)))

/-- The state the computation reads: the two input arrays. -/
structure Spectrum where
  wave : List ℚ
  flux : List ℚ
deriving DecidableEq

/-- The computation as a state passer: it reads the arrays and writes
nothing back (cells 14 to 16 only bind new names). -/
def ew_run (st : Spectrum) : Except Err (Option ℚ) × Spectrum :=
  (ew_compute st.wave st.flux, { wave := st.wave, flux := st.flux })

/-- Whether a pipeline outcome is a raised exception. -/
def isErr : Except Err (Option ℚ) → Bool
  | Except.error _ => true
  | Except.ok _ => false

/-- Build observer-frame wavelengths from rest-frame ones. -/
def mkWave (rs : List ℚ) : List ℚ := rs.map (fun r => qmul r (qadd 1 zshift))


/-- Concrete spectrum: continuum nodes 4810, 4830, two line-window samples
4855 (zero flux, also a continuum node) and 4860, continuum nodes 4880,
4895 (rest frame). -/
def waveZero : List ℚ := mkWave [4810, 4830, 4855, 4860, 4880, 4895]

/-- Fluxes for waveZero, zero at the 4855 sample. -/
def fluxZero : List ℚ := [1, 1, 0, 1, 1, 1]

/-- Concrete spectrum with constant flux: continuum nodes 4810, 4830, 4845,
4880, 4895 and line-window samples 4860, 4862. -/
def waveConst : List ℚ := mkWave [4810, 4830, 4845, 4860, 4862, 4880, 4895]

/-- Constant unit flux for waveConst. -/
def fluxConst : List ℚ := List.replicate 7 1

/-- Concrete spectrum with samples 4852 and 4855 inside both the line
window and the first continuum window. -/
def waveOverlap : List ℚ := mkWave [4810, 4820, 4852, 4855, 4880, 4895]

/-- Unit fluxes for waveOverlap. -/
def fluxOverlap : List ℚ := [1, 1, 1, 1, 1, 1]

/-- Concrete spectrum whose samples all lie below the line window. -/
def waveFlat : List ℚ := mkWave [4810, 4820, 4830, 4840]

/-- Unit fluxes for waveFlat. -/
def fluxFlat : List ℚ := [1, 1, 1, 1]

/-- Concrete wavelength array that is NOT strictly increasing (it starts
at rest wavelength 4950, outside every window, then drops to 4810). -/
def waveDisord : List ℚ := mkWave [4950, 4810, 4830, 4840, 4860, 4895]

/-- Unit fluxes for waveDisord. -/
def fluxDisord : List ℚ := List.replicate 6 1

/-- Concrete spectrum for the line-doubling test: continuum nodes 4820,
4840, 4880, 4895 and line-window gap samples 4860, 4862. -/
def waveBump : List ℚ := mkWave [4820, 4840, 4860, 4862, 4880, 4895]

/-- A curved positive continuum on waveBump (the spline through its
continuum samples does not reproduce it at the gap samples). -/
def contBump : List ℚ := [1, 2, 1, 1, 1, 3]

/-- A line excess on waveBump supported on the two gap samples only, so it
vanishes on the continuum windows. -/
def lineBump : List ℚ := [0, 0, 1, 1, 0, 0]

/-- Concrete spectrum for node interpolation: continuum nodes 4810, 4830,
4855, 4880, 4895, with 4855 also inside the line window. -/
def waveNode : List ℚ := mkWave [4810, 4830, 4855, 4880, 4895]

/-- Fluxes for waveNode with a distinctive value at the 4855 node. -/
def fluxNode : List ℚ := [1, 1, 5, 1, 1]


theorem qadd_eq (a b : ℚ) : qadd a b = a + b := by
  have ha : (a.den : ℚ) ≠ 0 := by positivity
  have hb : (b.den : ℚ) ≠ 0 := by positivity
  rw [qadd, Rat.mkRat_eq_div]
  push_cast
  conv_rhs => rw [← Rat.num_div_den a, ← Rat.num_div_den b]
  rw [div_add_div _ _ ha hb]
  ring_nf

theorem qsub_eq (a b : ℚ) : qsub a b = a - b := by
  have ha : (a.den : ℚ) ≠ 0 := by positivity
  have hb : (b.den : ℚ) ≠ 0 := by positivity
  rw [qsub, Rat.mkRat_eq_div]
  push_cast
  conv_rhs => rw [← Rat.num_div_den a, ← Rat.num_div_den b]
  rw [div_sub_div _ _ ha hb]
  ring_nf

theorem qmul_eq (a b : ℚ) : qmul a b = a * b := by
  rw [qmul, Rat.mkRat_eq_div]
  push_cast
  conv_rhs => rw [← Rat.num_div_den a, ← Rat.num_div_den b]
  rw [div_mul_div_comm]

theorem qinv_eq (a : ℚ) : qinv a = a⁻¹ := by
  rw [qinv]
  rcases le_or_lt 0 a.num with h | h
  · rw [if_pos h, Rat.mkRat_eq_div, Rat.inv_def', Rat.divInt_eq_div]
    have h2 : ((a.num.natAbs : ℚ)) = ((a.num : ℚ)) := by
      rw [Int.cast_natAbs]; exact_mod_cast abs_of_nonneg h
    push_cast
    rw [h2]
  · rw [if_neg (not_le.mpr h), Rat.mkRat_eq_div, Rat.inv_def', Rat.divInt_eq_div]
    have h2 : ((a.num.natAbs : ℚ)) = -((a.num : ℚ)) := by
      rw [Int.cast_natAbs]; exact_mod_cast abs_of_neg h
    push_cast
    rw [h2, div_neg, neg_div, neg_neg]

theorem qdiv_eq (a b : ℚ) : qdiv a b = a / b := by
  rw [qdiv, qmul_eq, qinv_eq, div_eq_mul_inv]


theorem noline_iff (w : ℚ) :
    noline w = true ↔ (4800 < w ∧ w < 4858) ∨ (4865 < w ∧ w < 4900) := by
  simp [noline]

theorem lineonly_iff (w : ℚ) :
    lineonly w = true ↔ 4850 < w ∧ w < 4870 := by
  simp [lineonly]

theorem trapzOpt_nil : trapzOpt [] = some 0 := rfl

theorem trapzOpt_single (e : ℚ × Option ℚ) : trapzOpt [e] = some 0 := by
  cases e
  rfl

theorem trapzQ_nil : trapzQ [] = 0 := rfl

theorem trapzQ_single (e : ℚ × ℚ) : trapzQ [e] = 0 := by
  cases e
  rfl

/-- C1: the spec claims the continuum-window mask never selects a
wavelength inside the line window; in the code the continuum windows
(4800, 4858) and (4865, 4900) overlap the line window (4850, 4870), and a
concrete spectrum has continuum-selected samples inside the line window. -/
theorem contSamples_in_line_window :
    ∃ p ∈ contSamples waveOverlap fluxOverlap, lineonly p.1 = true := by decide

/-- C1 (amended): a continuum-selected wavelength never lies in the
central interval [4858, 4865]; the continuum mask excludes only that core,
not the whole line window. -/
theorem noline_excludes_core (w : ℚ) (h : noline w = true) :
    ¬ (4858 ≤ w ∧ w ≤ 4865) := by
  rw [noline_iff] at h
  rintro ⟨h1, h2⟩
  rcases h with ⟨_, hb⟩ | ⟨ha, _⟩
  · linarith
  · linarith

/-- Witness for noline_excludes_core at w = 4820. -/
theorem noline_excludes_core_witness :
    ¬ (4858 ≤ (4820 : ℚ) ∧ (4820 : ℚ) ≤ 4865) :=
  noline_excludes_core 4820 (by decide)

/-- C4: the spec claims a line window outside the sampled wavelength range
makes the computation fail; on a concrete spectrum sampled only below the
line window the pipeline returns 0 (np.trapz of an empty array). -/
theorem ew_empty_line_no_failure :
    lineSamples waveFlat fluxFlat = [] ∧
      ew_compute waveFlat fluxFlat = Except.ok (some 0) := by decide

/-- C4 (amended): when no sample falls inside the line window the pipeline
does not fail: it returns the equivalent width 0. -/
theorem ew_empty_line_returns_zero (wave flux : List ℚ) (v : Option ℚ)
    (h : ew_compute wave flux = Except.ok v)
    (hempty : lineSamples wave flux = []) : v = some 0 := by
  rw [ew_compute] at h
  split_ifs at h
  · rw [hempty] at h
    simp only [List.map_nil, trapzOpt_nil] at h
    injection h with h2
    exact h2.symm

/-- Witness for ew_empty_line_returns_zero on waveFlat. -/
theorem ew_empty_line_returns_zero_witness : (some 0 : Option ℚ) = some 0 :=
  ew_empty_line_returns_zero waveFlat fluxFlat (some 0) (by decide) (by decide)

/-- C5: the spec claims every non-strictly-increasing wavelength array
makes the computation fail; a concrete wavelength array that decreases
outside the windows passes every check and the pipeline returns a value. -/
theorem ew_disordered_no_failure :
    sIncr waveDisord = false ∧
      ew_compute waveDisord fluxDisord = Except.ok (some 0) := by decide

/-- C5 (amended): the pipeline raises an exception when the two arrays
have different lengths, or when the wavelengths selected by the continuum
mask are not strictly increasing; only the continuum-masked subsequence is
validated, not the full wavelength array. -/
theorem ew_fails_invalid_input (wave flux : List ℚ)
    (h : wave.length ≠ flux.length ∨
      sIncr ((contSamples wave flux).map Prod.fst) = false) :
    isErr (ew_compute wave flux) = true := by
  rw [ew_compute]
  split_ifs with h1 h2 h3
  · rcases h with hl | hs
    · exact absurd h1 hl
    · rw [h3] at hs
      exact Bool.noConfusion hs
  · rfl
  · rfl
  · rfl

/-- Witness for ew_fails_invalid_input on a length mismatch. -/
theorem ew_fails_invalid_input_witness :
    isErr (ew_compute (mkWave [4810]) []) = true :=
  ew_fails_invalid_input (mkWave [4810]) [] (Or.inl (by decide))

/-- C6: when the continuum windows select fewer than two samples the
pipeline fails at interpolation construction (CubicSpline needs at least
two points). -/
theorem ew_fails_few_continuum (wave flux : List ℚ)
    (hlen : wave.length = flux.length)
    (hfew : (contSamples wave flux).length < 2) :
    ew_compute wave flux = Except.error Err.tooFewPoints := by
  rw [ew_compute, if_pos hlen, if_neg (by omega)]

/-- Witness for ew_fails_few_continuum on the empty spectrum. -/
theorem ew_fails_few_continuum_witness :
    ew_compute [] [] = Except.error Err.tooFewPoints :=
  ew_fails_few_continuum [] [] rfl (by decide)

/-- C9: the computation is a pure function of the two input arrays and
leaves the state (the arrays) unchanged: equal inputs give equal results,
and the state coming out is the state going in. -/
theorem ew_pure (s t : Spectrum) (hw : s.wave = t.wave) (hf : s.flux = t.flux) :
    (ew_run s).1 = (ew_run t).1 ∧ (ew_run s).2 = s := by
  cases s
  cases t
  cases hw
  cases hf
  exact ⟨rfl, rfl⟩

/-- Witness for ew_pure on a concrete spectrum. -/
theorem ew_pure_witness :
    (ew_run ⟨waveFlat, fluxFlat⟩).1 = (ew_run ⟨waveFlat, fluxFlat⟩).1 ∧
      (ew_run ⟨waveFlat, fluxFlat⟩).2 = ⟨waveFlat, fluxFlat⟩ :=
  ew_pure ⟨waveFlat, fluxFlat⟩ ⟨waveFlat, fluxFlat⟩ rfl rfl


theorem safeDiv_zero (a : ℚ) : safeDiv a 0 = none := by
  simp [safeDiv]

theorem safeDiv_some {a b v : ℚ} (h : safeDiv a b = some v) : v = qdiv a b := by
  rw [safeDiv] at h
  split_ifs at h
  injection h with h2
  exact h2.symm

/-- If the optional trapezoid sum of a mapped list comes out finite, it
equals the plain trapezoid sum of the same list with total division. -/
theorem trapzOpt_map_eq_trapzQ {γ : Type} (l : List γ) (xf num den : γ → ℚ)
    (r : ℚ)
    (h : trapzOpt (l.map fun p => (xf p, safeDiv (num p) (den p))) = some r) :
    trapzQ (l.map fun p => (xf p, qdiv (num p) (den p))) = r := by
  induction l generalizing r with
  | nil =>
      rw [List.map_nil, trapzOpt_nil] at h
      injection h
  | cons p t ih =>
      cases t with
      | nil =>
          rw [List.map_cons, List.map_nil, trapzOpt_single] at h
          injection h
      | cons q rest =>
          rw [List.map_cons, List.map_cons] at h
          rw [trapzOpt] at h
          rcases hd1 : safeDiv (num p) (den p) with _ | v1 <;> rw [hd1] at h
          · exact Option.noConfusion h
          rcases hd2 : safeDiv (num q) (den q) with _ | v2 <;> rw [hd2] at h
          · exact Option.noConfusion h
          rcases hr : trapzOpt ((xf q, some v2) :: rest.map
              fun p => (xf p, safeDiv (num p) (den p))) with _ | rr <;>
            rw [hr] at h
          · exact Option.noConfusion h
          injection h with h2
          rw [List.map_cons, List.map_cons, trapzQ]
          have htail : trapzOpt ((q :: rest).map
              fun p => (xf p, safeDiv (num p) (den p))) = some rr := by
            rw [List.map_cons, hd2]
            exact hr
          have ih2 := ih rr htail
          rw [List.map_cons] at ih2
          rw [ih2]
          rw [safeDiv_some hd1, safeDiv_some hd2] at h2
          exact h2

/-- A zero divisor at any sample of a list with at least two samples makes
the optional trapezoid sum non-finite. -/
theorem trapzOpt_map_zero_den {γ : Type} (l : List γ) (xf num den : γ → ℚ)
    (hlen : 2 ≤ l.length) (p0 : γ) (hp0 : p0 ∈ l) (hz : den p0 = 0) :
    trapzOpt (l.map fun p => (xf p, safeDiv (num p) (den p))) = none := by
  induction l with
  | nil => exact absurd hlen (by simp)
  | cons p t ih =>
      cases t with
      | nil => exact absurd hlen (by simp)
      | cons q rest =>
          rw [List.map_cons, List.map_cons, trapzOpt]
          rcases List.mem_cons.mp hp0 with hpp | hpt
          · rw [← hpp, hz, safeDiv_zero]
            rfl
          rcases List.mem_cons.mp hpt with hpq | hprest
          · rw [← hpq, hz, safeDiv_zero]
            rcases safeDiv (num p) (den p) with _ | v1 <;> rfl
          · have hrest : rest ≠ [] := List.ne_nil_of_mem hprest
            have hlen2 : 2 ≤ (q :: rest).length := by
              cases rest with
              | nil => exact absurd rfl hrest
              | cons a b => simp [List.length_cons]
            have ih2 := ih hlen2 (List.mem_cons_of_mem q hprest)
            rw [List.map_cons] at ih2
            rw [ih2]
            rcases safeDiv (num p) (den p) with _ | v1 <;>
              rcases safeDiv (num q) (den q) with _ | v2 <;> rfl

/-- C2: a finite returned equivalent width equals the spec formula: the
trapezoidal integral over the line-window samples of
(flux - continuum)/continuum with the continuum spline fitted through the
continuum-window samples. -/
theorem ew_matches_formula (wave flux : List ℚ) (r : ℚ)
    (h : ew_compute wave flux = Except.ok (some r)) :
    r = ew_formula wave flux := by
  rw [ew_compute] at h
  split_ifs at h
  injection h with h2
  have h3 := trapzOpt_map_eq_trapzQ (lineSamples wave flux) Prod.fst
    (fun p => qsub p.2 (splineEval (theSpline wave flux) p.1))
    (fun p => splineEval (theSpline wave flux) p.1) r h2
  simp only [qdiv_eq, qsub_eq] at h3
  rw [ew_formula]
  exact h3.symm

set_option maxHeartbeats 1600000 in
/-- Witness for ew_matches_formula on the constant-flux spectrum. -/
theorem ew_matches_formula_witness : (0 : ℚ) = ew_formula waveConst fluxConst :=
  ew_matches_formula waveConst fluxConst 0 (by decide)

set_option maxHeartbeats 1600000 in
/-- C3: the spec claims a zero continuum inside the line window raises an
error; on a concrete spectrum whose spline is zero at the 4855 line sample
the pipeline raises nothing and returns a value (the non-finite float that
numpy division by zero produces). -/
theorem ew_zero_continuum_no_failure :
    (∃ p ∈ lineSamples waveZero fluxZero,
        splineEval (theSpline waveZero fluxZero) p.1 = 0) ∧
      ew_compute waveZero fluxZero = Except.ok none := by decide

/-- C3 (amended): when the continuum spline is zero at a sampled
wavelength inside the line window (and the line window holds at least two
samples), the computation still returns, and the returned value is the
non-finite float produced by the division by zero. -/
theorem ew_zero_continuum_nonfinite (wave flux : List ℚ) (v : Option ℚ)
    (h : ew_compute wave flux = Except.ok v)
    (p0 : ℚ × ℚ) (hp0 : p0 ∈ lineSamples wave flux)
    (hz : splineEval (theSpline wave flux) p0.1 = 0)
    (hlen2 : 2 ≤ (lineSamples wave flux).length) : v = none := by
  rw [ew_compute] at h
  split_ifs at h
  rw [Except.ok.injEq] at h
  rw [← h]
  exact trapzOpt_map_zero_den (lineSamples wave flux) Prod.fst
    (fun p => qsub p.2 (splineEval (theSpline wave flux) p.1))
    (fun p => splineEval (theSpline wave flux) p.1) hlen2 p0 hp0 hz

set_option maxHeartbeats 1600000 in
/-- Witness for ew_zero_continuum_nonfinite on waveZero. -/
theorem ew_zero_continuum_nonfinite_witness : (none : Option ℚ) = none :=
  ew_zero_continuum_nonfinite waveZero fluxZero none (by decide)
    (4855, 0) (by decide) (by decide) (by decide)


theorem qsub_self (a : ℚ) : qsub a a = 0 := by
  rw [qsub_eq]
  ring

theorem qdiv_zero (b : ℚ) : qdiv 0 b = 0 := by
  rw [qdiv_eq]
  exact zero_div b

theorem consec_mem {α β : Type} (f : α → α → β) (l : List α) (r : β)
    (hr : r ∈ consec f l) : ∃ a ∈ l, ∃ b ∈ l, r = f a b := by
  induction l with
  | nil => exact absurd hr (by simp [consec])
  | cons a t ih =>
      cases t with
      | nil => exact absurd hr (by simp [consec])
      | cons b rest =>
          rw [consec] at hr
          rcases List.mem_cons.mp hr with h1 | h2
          · exact ⟨a, List.mem_cons_self a _, b, List.mem_cons_of_mem a
              (List.mem_cons_self b _), h1⟩
          · rcases ih h2 with ⟨x, hx, y, hy, hxy⟩
            exact ⟨x, List.mem_cons_of_mem a hx, y, List.mem_cons_of_mem a hy, hxy⟩

theorem consec_length {α β : Type} (f : α → α → β) (l : List α) :
    (consec f l).length = l.length - 1 := by
  induction l with
  | nil => rfl
  | cons a t ih =>
      cases t with
      | nil => rfl
      | cons b rest =>
          rw [consec, List.length_cons, ih]
          simp

theorem getD_zero (l : List ℚ) (hl : ∀ x ∈ l, x = 0) (i : ℕ) : l.getD i 0 = 0 := by
  induction l generalizing i with
  | nil => rfl
  | cons a t ih =>
      cases i with
      | zero => exact hl a (List.mem_cons_self a t)
      | succ j => exact ih (fun x hx => hl x (List.mem_cons_of_mem a hx)) j

theorem thomasFwd_d_zero (rows : List TriRow) (hd : ∀ r ∈ rows, r.d = 0)
    (pc : ℚ) : ∀ e ∈ thomasFwd pc 0 rows, e.2 = 0 := by
  induction rows generalizing pc with
  | nil =>
      intro e he
      exact absurd he (by simp [thomasFwd])
  | cons r rest ih =>
      intro e he
      rw [thomasFwd] at he
      have hd0 : r.d = 0 := hd r (List.mem_cons_self r rest)
      have hzero : qdiv (qsub r.d (qmul r.a 0)) (qsub r.b (qmul r.a pc)) = 0 := by
        simp only [hd0, qdiv_eq, qsub_eq, qmul_eq]
        ring
      rw [hzero] at he
      rcases List.mem_cons.mp he with h1 | h2
      · rw [h1]
      · exact ih (fun x hx => hd x (List.mem_cons_of_mem r hx)) _ e h2

theorem thomasBwd_zero (l : List (ℚ × ℚ)) (hl : ∀ e ∈ l, e.2 = 0) :
    ∀ x ∈ thomasBwd l, x = 0 := by
  induction l with
  | nil =>
      intro x hx
      exact absurd hx (by simp [thomasBwd])
  | cons e rest ih =>
      intro x hx
      rw [thomasBwd] at hx
      have ih2 := ih (fun a ha => hl a (List.mem_cons_of_mem e ha))
      rcases List.mem_cons.mp hx with h1 | h2
      · rw [h1, hl e (List.mem_cons_self e rest)]
        have hh : (thomasBwd rest).headD 0 = 0 := by
          cases hb : thomasBwd rest with
          | nil => rfl
          | cons y ys =>
              have hy : y = 0 := ih2 y (by rw [hb]; exact List.mem_cons_self y ys)
              rw [List.headD_cons, hy]
        rw [hh]
        simp only [qsub_eq, qmul_eq]
        ring
      · exact ih2 x h2

theorem thomasSolve_zero (rows : List TriRow) (hd : ∀ r ∈ rows, r.d = 0)
    (x : ℚ) (hx : x ∈ thomasSolve rows) : x = 0 := by
  refine thomasBwd_zero _ ?_ x hx
  intro e he
  exact thomasFwd_d_zero rows hd 0 e he

theorem slopesOf_const (nodes : List (ℚ × ℚ)) (k : ℚ)
    (hk : ∀ p ∈ nodes, p.2 = k) (sl : ℚ) (hsl : sl ∈ slopesOf nodes) : sl = 0 := by
  rcases consec_mem _ nodes sl hsl with ⟨a, ha, b, hb, hab⟩
  rw [hab, hk a ha, hk b hb, qsub_self, qdiv_zero]

theorem mkRows_d_const (nodes : List (ℚ × ℚ))
    (hsl : ∀ sl ∈ slopesOf nodes, sl = 0)
    (r : TriRow) (hr : r ∈ mkRows nodes) : r.d = 0 := by
  rw [mkRows] at hr
  rcases List.mem_cons.mp hr with h1 | h2
  · rw [h1, bRow1, getD_zero _ hsl 0, getD_zero _ hsl 1]
    simp only [qdiv_eq, qadd_eq, qmul_eq]
    ring
  rcases List.mem_append.mp h2 with h3 | h4
  · rcases consec_mem _ _ r h3 with ⟨a, ha, b, hb, hab⟩
    have ha2 : a.2 = 0 := hsl a.2 (List.of_mem_zip ha).2
    have hb2 : b.2 = 0 := hsl b.2 (List.of_mem_zip hb).2
    rw [hab, midRow, ha2, hb2]
    simp only [qmul_eq, qadd_eq]
    ring
  · have hrev : ∀ sl ∈ (slopesOf nodes).reverse, sl = 0 := by
      intro sl hslr
      exact hsl sl (List.mem_reverse.mp hslr)
    rw [List.mem_singleton.mp h4, bRowN, getD_zero _ hrev 0, getD_zero _ hrev 1]
    simp only [qdiv_eq, qadd_eq, qmul_eq]
    ring

theorem cramer3_zero_rhs (a b c d e f g h i : ℚ) (x : ℚ)
    (hx : x ∈ cramer3 a b c d e f g h i 0 0 0) : x = 0 := by
  have hz1 : det3 0 b c 0 e f 0 h i = 0 := by
    rw [det3]
    simp only [qsub_eq, qadd_eq, qmul_eq]
    ring
  have hz2 : det3 a 0 c d 0 f g 0 i = 0 := by
    rw [det3]
    simp only [qsub_eq, qadd_eq, qmul_eq]
    ring
  have hz3 : det3 a b 0 d e 0 g h 0 = 0 := by
    rw [det3]
    simp only [qsub_eq, qadd_eq, qmul_eq]
    ring
  rw [cramer3] at hx
  simp only [List.mem_cons, List.not_mem_nil, or_false] at hx
  rcases hx with h1 | h2 | h3
  · rw [h1, hz1, qdiv_eq, zero_div]
  · rw [h2, hz2, qdiv_eq, zero_div]
  · rw [h3, hz3, qdiv_eq, zero_div]

theorem solveS_const (nodes : List (ℚ × ℚ)) (k : ℚ)
    (hk : ∀ p ∈ nodes, p.2 = k) : ∀ v ∈ solveS nodes, v = 0 := by
  rcases nodes with _ | ⟨p, _ | ⟨q, _ | ⟨r, _ | ⟨s, rest⟩⟩⟩⟩
  · intro v hv
    exact absurd hv (by simp [solveS])
  · intro v hv
    rw [solveS] at hv
    simpa using hv
  · intro v hv
    have hp := hk p (by simp)
    have hq := hk q (by simp)
    rw [solveS] at hv
    simp only [List.mem_cons, List.not_mem_nil, or_false] at hv
    have hval : qdiv (qsub q.2 p.2) (qsub q.1 p.1) = 0 := by
      rw [hp, hq, qsub_self, qdiv_zero]
    rcases hv with h1 | h2
    · rw [h1, hval]
    · rw [h2, hval]
  · intro v hv
    have hp := hk p (by simp)
    have hq := hk q (by simp)
    have hr := hk r (by simp)
    rw [solveS] at hv
    have e1 : qmul 2 (qdiv (qsub q.2 p.2) (qsub q.1 p.1)) = 0 := by
      rw [hp, hq, qsub_self, qdiv_zero]
      rw [qmul_eq]
      ring
    have e2 : qmul 2 (qdiv (qsub r.2 q.2) (qsub r.1 q.1)) = 0 := by
      rw [hq, hr, qsub_self, qdiv_zero]
      rw [qmul_eq]
      ring
    have e3 : qmul 3 (qadd (qmul (qsub r.1 q.1) (qdiv (qsub q.2 p.2) (qsub q.1 p.1)))
        (qmul (qsub q.1 p.1) (qdiv (qsub r.2 q.2) (qsub r.1 q.1)))) = 0 := by
      rw [hp, hq, hr, qsub_self]
      rw [qdiv_zero, qdiv_zero]
      simp only [qmul_eq, qadd_eq]
      ring
    rw [e1, e2, e3] at hv
    exact cramer3_zero_rhs _ _ _ _ _ _ _ _ _ v hv
  · intro v hv
    rw [solveS] at hv
    refine thomasSolve_zero _ ?_ v hv
    intro row hrow
    refine mkRows_d_const _ ?_ row hrow
    intro sl hsl
    exact slopesOf_const _ k hk sl hsl


theorem attachS_mem (ps : List (ℚ × ℚ)) (vs : List ℚ) (t : ℚ × ℚ × ℚ)
    (ht : t ∈ attachS ps vs) : ∃ p ∈ ps, ∃ v ∈ vs, t = (p.1, p.2, v) := by
  induction ps generalizing vs with
  | nil => exact absurd ht (by cases vs <;> simp [attachS])
  | cons p rest ih =>
      cases vs with
      | nil => exact absurd ht (by simp [attachS])
      | cons v vrest =>
          rw [attachS] at ht
          rcases List.mem_cons.mp ht with h1 | h2
          · exact ⟨p, by simp, v, by simp, h1⟩
          · rcases ih vrest h2 with ⟨p2, hp2, v2, hv2, he⟩
            exact ⟨p2, List.mem_cons_of_mem p hp2, v2,
              List.mem_cons_of_mem v hv2, he⟩

theorem mkPieces_mem (tps : List (ℚ × ℚ × ℚ)) (pc : Piece)
    (hpc : pc ∈ mkPieces tps) : ∃ t ∈ tps, ∃ u ∈ tps, pc = mkPiece t u := by
  induction tps with
  | nil => exact absurd hpc (by simp [mkPieces])
  | cons t rest ih =>
      cases rest with
      | nil => exact absurd hpc (by simp [mkPieces])
      | cons u rest2 =>
          rw [mkPieces] at hpc
          rcases List.mem_cons.mp hpc with h1 | h2
          · exact ⟨t, by simp, u, by simp, h1⟩
          · rcases ih h2 with ⟨t2, ht2, u2, hu2, he⟩
            exact ⟨t2, List.mem_cons_of_mem t ht2, u2,
              List.mem_cons_of_mem t hu2, he⟩

theorem evalPiece_mkPiece_const (t u : ℚ × ℚ × ℚ) (k x : ℚ) (ht1 : t.2.1 = k)
    (hu1 : u.2.1 = k) (ht2 : t.2.2 = 0) (hu2 : u.2.2 = 0) :
    evalPiece (mkPiece t u) x = k := by
  rw [evalPiece, mkPiece]
  simp only [ht1, hu1, ht2, hu2]
  simp only [qadd_eq, qsub_eq, qmul_eq, qdiv_eq]
  ring

theorem findPiece_mem (ps : List Piece) (x : ℚ) (hne : ps ≠ []) :
    findPiece ps x ∈ ps := by
  induction ps with
  | nil => exact absurd rfl hne
  | cons p rest ih =>
      cases rest with
      | nil =>
          rw [findPiece]
          exact List.mem_cons_self p []
      | cons q rest2 =>
          rw [findPiece]
          split_ifs with hx
          · exact List.mem_cons_self p (q :: rest2)
          · exact List.mem_cons_of_mem p (ih (by simp))

theorem thomasFwd_length (rows : List TriRow) (pc pd : ℚ) :
    (thomasFwd pc pd rows).length = rows.length := by
  induction rows generalizing pc pd with
  | nil => rfl
  | cons r rest ih =>
      rw [thomasFwd, List.length_cons, List.length_cons, ih]

theorem thomasBwd_length (l : List (ℚ × ℚ)) :
    (thomasBwd l).length = l.length := by
  induction l with
  | nil => rfl
  | cons e rest ih =>
      rw [thomasBwd, List.length_cons, List.length_cons, ih]

theorem mkRows_length (nodes : List (ℚ × ℚ)) (hn : 2 ≤ nodes.length) :
    (mkRows nodes).length = nodes.length := by
  rw [mkRows]
  simp only [List.length_cons, List.length_append, List.length_singleton,
    List.length_nil, consec_length, List.length_zip, hsOf, slopesOf,
    Nat.min_self]
  omega

theorem solveS_length (nodes : List (ℚ × ℚ)) :
    (solveS nodes).length = nodes.length := by
  rcases nodes with _ | ⟨p, _ | ⟨q, _ | ⟨r, _ | ⟨s, rest⟩⟩⟩⟩
  · rfl
  · rfl
  · rfl
  · rw [solveS, cramer3]
    simp only [List.length_cons, List.length_nil]
  · rw [solveS, thomasSolve, thomasBwd_length, thomasFwd_length, mkRows_length]
    simp only [List.length_cons]
    omega

theorem attachS_length (ps : List (ℚ × ℚ)) (vs : List ℚ) :
    (attachS ps vs).length = min ps.length vs.length := by
  induction ps generalizing vs with
  | nil =>
      cases vs <;> simp [attachS]
  | cons p rest ih =>
      cases vs with
      | nil => simp [attachS]
      | cons v vrest =>
          rw [attachS, List.length_cons, ih]
          simp only [List.length_cons]
          omega

theorem mkPieces_length (tps : List (ℚ × ℚ × ℚ)) :
    (mkPieces tps).length = tps.length - 1 := by
  induction tps with
  | nil => rfl
  | cons t rest ih =>
      cases rest with
      | nil => rfl
      | cons u rest2 =>
          rw [mkPieces, List.length_cons, ih]
          simp

theorem splineEval_const (nodes : List (ℚ × ℚ)) (k x : ℚ)
    (hk : ∀ p ∈ nodes, p.2 = k) (hn : 2 ≤ nodes.length) :
    splineEval (buildSpline nodes) x = k := by
  have hlen : (attachS nodes (solveS nodes)).length = nodes.length := by
    rw [attachS_length, solveS_length]
    exact min_self _
  have hne : buildSpline nodes ≠ [] := by
    rw [buildSpline]
    intro hcon
    have hl2 := mkPieces_length (attachS nodes (solveS nodes))
    rw [hcon, hlen] at hl2
    simp only [List.length_nil] at hl2
    omega
  rw [splineEval]
  have hmem := findPiece_mem (buildSpline nodes) x hne
  rw [buildSpline] at hmem
  rcases mkPieces_mem _ _ hmem with ⟨t, htm, u, hum, hpc⟩
  rcases attachS_mem _ _ _ htm with ⟨p, hp, v, hv, ht⟩
  rcases attachS_mem _ _ _ hum with ⟨p2, hp2, v2, hv2, hu⟩
  rw [buildSpline, hpc]
  refine evalPiece_mkPiece_const t u k x ?_ ?_ ?_ ?_
  · rw [ht]
    exact hk p hp
  · rw [hu]
    exact hk p2 hp2
  · rw [ht]
    exact solveS_const nodes k hk v hv
  · rw [hu]
    exact solveS_const nodes k hk v2 hv2

theorem pairsOf_replicate (wave : List ℚ) (k : ℚ) (p : ℚ × ℚ)
    (hp : p ∈ pairsOf wave (List.replicate wave.length k)) : p.2 = k := by
  obtain ⟨a, b⟩ := p
  exact List.eq_of_mem_replicate (List.of_mem_zip hp).2

theorem trapzOpt_all_zero (l : List (ℚ × Option ℚ))
    (hl : ∀ e ∈ l, e.2 = some 0) : trapzOpt l = some 0 := by
  induction l with
  | nil => rfl
  | cons e t ih =>
      cases t with
      | nil => exact trapzOpt_single e
      | cons e2 rest =>
          obtain ⟨x1, y1⟩ := e
          obtain ⟨x2, y2⟩ := e2
          have h1 : y1 = some 0 := hl (x1, y1) (by simp)
          have h2 : y2 = some 0 := hl (x2, y2) (by simp)
          have h3 : trapzOpt ((x2, y2) :: rest) = some 0 :=
            ih (fun a ha => hl a (List.mem_cons_of_mem _ ha))
          rw [h2] at h3
          rw [trapzOpt, h1, h2, h3]
          show some (qadd (qmul (qdiv (qadd 0 0) 2) (qsub x2 x1)) 0) = some 0
          congr 1
          simp only [qadd_eq, qmul_eq, qdiv_eq, qsub_eq]
          ring

/-- C7: a spectrum with constant nonzero flux (flux equals continuum
everywhere) yields equivalent width exactly 0: the cubic spline through
constant samples is that constant, the excess vanishes at every line
sample, and the trapezoid sum of zeros is zero. -/
theorem ew_const_flux_zero (wave : List ℚ) (k : ℚ) (v : Option ℚ) (hk : k ≠ 0)
    (h : ew_compute wave (List.replicate wave.length k) = Except.ok v) :
    v = some 0 := by
  rw [ew_compute] at h
  split_ifs at h with h1 h2 h3
  rw [Except.ok.injEq] at h
  rw [← h]
  refine trapzOpt_all_zero _ ?_
  intro e he
  rcases List.mem_map.mp he with ⟨p, hp, hpe⟩
  have hp2 : p.2 = k := pairsOf_replicate wave k p (List.mem_filter.mp hp).1
  have hs : splineEval (theSpline wave (List.replicate wave.length k)) p.1 = k := by
    rw [theSpline]
    refine splineEval_const _ k p.1 ?_ h2
    intro q hq
    exact pairsOf_replicate wave k q (List.mem_filter.mp hq).1
  rw [← hpe]
  simp only [hp2, hs, qsub_self, safeDiv, if_neg hk, qdiv_zero]

set_option maxHeartbeats 1600000 in
/-- Witness for ew_const_flux_zero on waveConst with k = 1. -/
theorem ew_const_flux_zero_witness : (some 0 : Option ℚ) = some 0 :=
  ew_const_flux_zero waveConst 1 (some 0) (by decide) (by decide)


theorem mkPiece_xl (t u : ℚ × ℚ × ℚ) : (mkPiece t u).xl = t.1 := rfl

theorem mkPieces_singleton (t : ℚ × ℚ × ℚ) : mkPieces [t] = [] := rfl

theorem evalPiece_mkPiece_left (t u : ℚ × ℚ × ℚ) :
    evalPiece (mkPiece t u) t.1 = t.2.1 := by
  simp only [evalPiece, mkPiece, qsub_self]
  simp only [qadd_eq, qsub_eq, qmul_eq, qdiv_eq]
  ring

theorem evalPiece_mkPiece_right (t u : ℚ × ℚ × ℚ) (hne : t.1 ≠ u.1) :
    evalPiece (mkPiece t u) u.1 = u.2.1 := by
  have hdx : u.1 - t.1 ≠ 0 := sub_ne_zero.mpr (Ne.symm hne)
  simp only [evalPiece, mkPiece]
  simp only [qadd_eq, qsub_eq, qmul_eq, qdiv_eq]
  field_simp
  ring

theorem sIncr_chain (l : List ℚ) :
    sIncr l = true ↔ l.Chain' (fun a b => a < b) := by
  induction l with
  | nil => simp [sIncr]
  | cons a t ih =>
      cases t with
      | nil => simp [sIncr]
      | cons b rest =>
          rw [sIncr, List.chain'_cons, Bool.and_eq_true, decide_eq_true_iff, ih]

theorem chain_head_le (t2 : ℚ × ℚ × ℚ) (rest : List (ℚ × ℚ × ℚ))
    (hch : List.Chain' (fun a b : ℚ × ℚ × ℚ => a.1 < b.1) (t2 :: rest))
    (t : ℚ × ℚ × ℚ) (ht : t ∈ t2 :: rest) : t2.1 ≤ t.1 := by
  haveI : IsTrans (ℚ × ℚ × ℚ) (fun a b => a.1 < b.1) :=
    ⟨fun a b c hab hbc => lt_trans hab hbc⟩
  have hpw := List.chain'_iff_pairwise.mp hch
  rcases List.mem_cons.mp ht with h1 | h2
  · rw [h1]
  · exact le_of_lt (List.rel_of_pairwise_cons hpw h2)

/-- The spline interpolates: at every node the spline takes the node
value. -/
theorem mkPieces_interp (tps : List (ℚ × ℚ × ℚ))
    (hch : List.Chain' (fun a b : ℚ × ℚ × ℚ => a.1 < b.1) tps)
    (hlen : 2 ≤ tps.length) (t : ℚ × ℚ × ℚ) (ht : t ∈ tps) :
    splineEval (mkPieces tps) t.1 = t.2.1 := by
  induction tps with
  | nil => simp at hlen
  | cons a rest ih =>
      cases rest with
      | nil => simp at hlen
      | cons b rest2 =>
          have hab : a.1 < b.1 := (List.chain'_cons.mp hch).1
          rcases List.mem_cons.mp ht with hta | htb
          · cases rest2 with
            | nil =>
                rw [hta, splineEval, mkPieces, mkPieces_singleton, findPiece]
                exact evalPiece_mkPiece_left a b
            | cons c rest3 =>
                rw [hta, splineEval, mkPieces, mkPieces, findPiece]
                rw [if_pos (by rw [mkPiece_xl]; exact hab)]
                exact evalPiece_mkPiece_left a b
          · have hble : b.1 ≤ t.1 :=
              chain_head_le b rest2 (List.chain'_cons.mp hch).2 t htb
            cases rest2 with
            | nil =>
                have htb2 : t = b := by simpa using htb
                rw [htb2, splineEval, mkPieces, mkPieces_singleton, findPiece]
                exact evalPiece_mkPiece_right a b (ne_of_lt hab)
            | cons c rest3 =>
                have hstep : splineEval (mkPieces (a :: b :: c :: rest3)) t.1 =
                    splineEval (mkPieces (b :: c :: rest3)) t.1 := by
                  rw [splineEval, splineEval, mkPieces]
                  conv_lhs => rw [mkPieces]
                  rw [findPiece]
                  rw [if_neg (by rw [mkPiece_xl]; exact not_lt.mpr hble)]
                  rfl
                rw [hstep]
                exact ih (List.chain'_cons.mp hch).2 (by simp) htb

theorem attachS_map_fst (ps : List (ℚ × ℚ)) (vs : List ℚ)
    (hlen : ps.length ≤ vs.length) :
    (attachS ps vs).map (fun t => t.1) = ps.map Prod.fst := by
  induction ps generalizing vs with
  | nil => cases vs <;> simp [attachS]
  | cons a rest ih =>
      cases vs with
      | nil => simp at hlen
      | cons v vrest =>
          rw [attachS, List.map_cons, List.map_cons, ih vrest]
          simp only [List.length_cons] at hlen
          omega

theorem attachS_mem_of_mem (ps : List (ℚ × ℚ)) (vs : List ℚ) (p : ℚ × ℚ)
    (hp : p ∈ ps) (hlen : ps.length ≤ vs.length) :
    ∃ t ∈ attachS ps vs, t.1 = p.1 ∧ t.2.1 = p.2 := by
  induction ps generalizing vs with
  | nil => simp at hp
  | cons a rest ih =>
      cases vs with
      | nil => simp at hlen
      | cons v vrest =>
          rw [attachS]
          rcases List.mem_cons.mp hp with h1 | h2
          · exact ⟨(a.1, a.2, v), by simp, by rw [h1], by rw [h1]⟩
          · have hlen2 : rest.length ≤ vrest.length := by
              simp only [List.length_cons] at hlen
              omega
            rcases ih vrest h2 hlen2 with ⟨t, htm, h3, h4⟩
            exact ⟨t, List.mem_cons_of_mem _ htm, h3, h4⟩

/-- C10: at a sample that lies both inside the line window and inside a
continuum window, the continuum-subtracted excess is exactly zero, because
the cubic spline interpolates the observed flux exactly at each of its
fitting nodes. -/
theorem excess_zero_at_overlap (wave flux : List ℚ)
    (hinc : sIncr ((contSamples wave flux).map Prod.fst) = true)
    (hn : 2 ≤ (contSamples wave flux).length)
    (p : ℚ × ℚ) (hp : p ∈ pairsOf wave flux)
    (hline : lineonly p.1 = true) (hcont : noline p.1 = true) :
    p.2 - splineEval (theSpline wave flux) p.1 = 0 := by
  have hpc : p ∈ contSamples wave flux := List.mem_filter.mpr ⟨hp, hcont⟩
  have hslen : (solveS (contSamples wave flux)).length =
      (contSamples wave flux).length := solveS_length _
  obtain ⟨t, htm, ht1, ht21⟩ := attachS_mem_of_mem (contSamples wave flux)
    (solveS (contSamples wave flux)) p hpc (by rw [hslen])
  have hmap : (attachS (contSamples wave flux)
      (solveS (contSamples wave flux))).map (fun t => t.1) =
      (contSamples wave flux).map Prod.fst :=
    attachS_map_fst _ _ (by rw [hslen])
  have hch : List.Chain' (fun a b : ℚ × ℚ × ℚ => a.1 < b.1)
      (attachS (contSamples wave flux) (solveS (contSamples wave flux))) := by
    have hc := (sIncr_chain _).mp hinc
    rw [← hmap] at hc
    exact (List.chain'_map _).mp hc
  have hlen2 : 2 ≤ (attachS (contSamples wave flux)
      (solveS (contSamples wave flux))).length := by
    rw [attachS_length, hslen, min_self]
    exact hn
  have hinterp := mkPieces_interp _ hch hlen2 t htm
  rw [ht1, ht21] at hinterp
  rw [theSpline, buildSpline, hinterp, sub_self]

set_option maxHeartbeats 1600000 in
/-- Witness for excess_zero_at_overlap: the node at 4855 with flux 5 in
waveNode lies inside both windows and its excess is exactly zero. -/
theorem excess_zero_at_overlap_witness :
    (5 : ℚ) - splineEval (theSpline waveNode fluxNode) 4855 = 0 :=
  excess_zero_at_overlap waveNode fluxNode (by decide) (by decide)
    (4855, 5) (by decide) (by decide) (by decide)


theorem trapzQ_cons₂ (x1 y1 x2 y2 : ℚ) (rest : List (ℚ × ℚ)) :
    trapzQ ((x1, y1) :: (x2, y2) :: rest) =
      (y1 + y2) / 2 * (x2 - x1) + trapzQ ((x2, y2) :: rest) := by
  rw [trapzQ]
  simp only [qadd_eq, qmul_eq, qdiv_eq, qsub_eq]

theorem trapzQ_map_linear {γ : Type} (l : List γ) (xf u w : γ → ℚ) (a : ℚ) :
    trapzQ (l.map fun p => (xf p, u p + a * w p)) =
      trapzQ (l.map fun p => (xf p, u p)) +
        a * trapzQ (l.map fun p => (xf p, w p)) := by
  induction l with
  | nil =>
      simp only [List.map_nil, trapzQ_nil]
      ring
  | cons p t ih =>
      cases t with
      | nil =>
          simp only [List.map_cons, List.map_nil, trapzQ_single]
          ring
      | cons q rest =>
          simp only [List.map_cons]
          simp only [List.map_cons] at ih
          rw [trapzQ_cons₂, trapzQ_cons₂, trapzQ_cons₂, ih]
          ring

theorem zip_filter_add_zero (rw c g : List ℚ) (hrc : rw.length = c.length)
    (hcg : c.length = g.length)
    (hg0 : ∀ p ∈ rw.zip g, noline p.1 = true → p.2 = 0) :
    (rw.zip (List.zipWith qadd c g)).filter (fun p => noline p.1) =
      (rw.zip c).filter (fun p => noline p.1) := by
  induction rw generalizing c g with
  | nil => simp
  | cons a rest ih =>
      cases c with
      | nil => simp at hrc
      | cons b c2 =>
          cases g with
          | nil => simp at hcg
          | cons d g2 =>
              simp only [List.length_cons] at hrc hcg
              have htail : ∀ p ∈ rest.zip g2, noline p.1 = true → p.2 = 0 :=
                fun p hp => hg0 p (List.mem_cons_of_mem _ hp)
              rw [List.zipWith_cons_cons, List.zip_cons_cons, List.zip_cons_cons]
              by_cases hFa : noline a = true
              · have hd0 : d = 0 :=
                  hg0 (a, d) (by rw [List.zip_cons_cons]; simp) hFa
                have hbd : qadd b d = b := by
                  rw [hd0, qadd_eq]
                  ring
                simp [List.filter_cons, hFa, hbd,
                  ih c2 g2 (by omega) (by omega) htail]
              · simp [List.filter_cons, hFa,
                  ih c2 g2 (by omega) (by omega) htail]

theorem zip_map_two_zero (rw g : List ℚ)
    (hg0 : ∀ p ∈ rw.zip g, noline p.1 = true → p.2 = 0) :
    ∀ p ∈ rw.zip (g.map fun t => qmul 2 t), noline p.1 = true → p.2 = 0 := by
  induction rw generalizing g with
  | nil => simp
  | cons a rest ih =>
      cases g with
      | nil => simp
      | cons d g2 =>
          intro p hp hF
          rw [List.map_cons, List.zip_cons_cons] at hp
          rcases List.mem_cons.mp hp with h1 | h2
          · have hd0 : d = 0 :=
              hg0 (a, d) (by rw [List.zip_cons_cons]; simp) (by rw [h1] at hF; exact hF)
            rw [h1]
            show qmul 2 d = 0
            rw [hd0, qmul_eq]
            ring
          · exact ih g2 (fun q hq => hg0 q (List.mem_cons_of_mem _ hq)) p h2 hF

theorem zip_filter_comb (rw c g : List ℚ) (comb : ℚ → ℚ → ℚ)
    (hrc : rw.length = c.length) (hcg : c.length = g.length) :
    (rw.zip (List.zipWith comb c g)).filter (fun p => lineonly p.1) =
      (((rw.zip (c.zip g)).filter (fun t => lineonly t.1)).map
        (fun t => (t.1, comb t.2.1 t.2.2))) := by
  induction rw generalizing c g with
  | nil => simp
  | cons a rest ih =>
      cases c with
      | nil => simp at hrc
      | cons b c2 =>
          cases g with
          | nil => simp at hcg
          | cons d g2 =>
              simp only [List.length_cons] at hrc hcg
              rw [List.zipWith_cons_cons, List.zip_cons_cons, List.zip_cons_cons,
                List.zip_cons_cons]
              by_cases hFa : lineonly a = true
              · simp [List.filter_cons, hFa, ih c2 g2 (by omega) (by omega)]
              · simp [List.filter_cons, hFa, ih c2 g2 (by omega) (by omega)]

theorem zip_filter_fst (rw c g : List ℚ)
    (hrc : rw.length = c.length) (hcg : c.length = g.length) :
    (rw.zip c).filter (fun p => lineonly p.1) =
      (((rw.zip (c.zip g)).filter (fun t => lineonly t.1)).map
        (fun t => (t.1, t.2.1))) := by
  induction rw generalizing c g with
  | nil => simp
  | cons a rest ih =>
      cases c with
      | nil => simp at hrc
      | cons b c2 =>
          cases g with
          | nil => simp at hcg
          | cons d g2 =>
              simp only [List.length_cons] at hrc hcg
              rw [List.zip_cons_cons, List.zip_cons_cons, List.zip_cons_cons]
              by_cases hFa : lineonly a = true
              · simp [List.filter_cons, hFa, ih c2 g2 (by omega) (by omega)]
              · simp [List.filter_cons, hFa, ih c2 g2 (by omega) (by omega)]


set_option maxHeartbeats 1600000 in
/-- C8: the spec claims doubling the additive line excess g (vanishing on
the continuum windows) doubles the equivalent width; on a concrete curved
continuum the spline does not reproduce the continuum at the gap samples,
the continuum-only run gives a nonzero width, and the doubled-excess
result is not twice the single-excess result. -/
theorem ew_doubling_fails :
    Except.map (Option.map fun t => qmul 2 t)
        (ew_compute waveBump (List.zipWith qadd contBump lineBump)) ≠
      ew_compute waveBump
        (List.zipWith qadd contBump (lineBump.map fun t => qmul 2 t)) := by decide

/-- C8 (amended): the equivalent width is affine in the line excess: for a
fixed continuum c and an excess g vanishing on the continuum windows,
with e0, e1, e2 the results for fluxes c, c + g, c + 2g, doubling the
excess doubles the deviation from the continuum-only result:
e2 - e0 = 2 * (e1 - e0).  (Exact doubling of the result itself holds only
when e0 = 0, i.e. when the spline reproduces the continuum.) -/
theorem ew_affine_in_excess (wave c g : List ℚ) (e0 e1 e2 : ℚ)
    (hlc : c.length = wave.length) (hlg : g.length = wave.length)
    (hg0 : ∀ p ∈ (restOf wave).zip g, noline p.1 = true → p.2 = 0)
    (h0 : ew_compute wave c = Except.ok (some e0))
    (h1 : ew_compute wave (List.zipWith qadd c g) = Except.ok (some e1))
    (h2 : ew_compute wave (List.zipWith qadd c (g.map fun t => qmul 2 t)) =
      Except.ok (some e2)) :
    e2 - e0 = 2 * (e1 - e0) := by
  have hrw : (restOf wave).length = wave.length := by
    rw [restOf, List.length_map]
  have hrc : (restOf wave).length = c.length := by omega
  have hcg : c.length = g.length := by omega
  have hcg2 : c.length = (g.map fun t => qmul 2 t).length := by
    rw [List.length_map]
    omega
  have hc1 : contSamples wave (List.zipWith qadd c g) = contSamples wave c := by
    rw [contSamples, contSamples, pairsOf, pairsOf]
    exact zip_filter_add_zero (restOf wave) c g hrc hcg hg0
  have hc2 : contSamples wave (List.zipWith qadd c (g.map fun t => qmul 2 t)) =
      contSamples wave c := by
    rw [contSamples, contSamples, pairsOf, pairsOf]
    exact zip_filter_add_zero (restOf wave) c _ hrc hcg2
      (zip_map_two_zero _ _ hg0)
  have hs1 : theSpline wave (List.zipWith qadd c g) = theSpline wave c := by
    rw [theSpline, theSpline, hc1]
  have hs2 : theSpline wave (List.zipWith qadd c (g.map fun t => qmul 2 t)) =
      theSpline wave c := by
    rw [theSpline, theSpline, hc2]
  have hT0 : lineSamples wave c =
      (((restOf wave).zip (c.zip g)).filter (fun t => lineonly t.1)).map
        (fun t => (t.1, t.2.1)) := by
    rw [lineSamples, pairsOf]
    exact zip_filter_fst _ _ _ hrc hcg
  have hT1 : lineSamples wave (List.zipWith qadd c g) =
      (((restOf wave).zip (c.zip g)).filter (fun t => lineonly t.1)).map
        (fun t => (t.1, qadd t.2.1 t.2.2)) := by
    rw [lineSamples, pairsOf]
    exact zip_filter_comb _ _ _ qadd hrc hcg
  have hT2 : lineSamples wave (List.zipWith qadd c (g.map fun t => qmul 2 t)) =
      (((restOf wave).zip (c.zip g)).filter (fun t => lineonly t.1)).map
        (fun t => (t.1, qadd t.2.1 (qmul 2 t.2.2))) := by
    rw [lineSamples, pairsOf, List.zipWith_map_right]
    exact zip_filter_comb _ _ _ (fun a b => qadd a (qmul 2 b)) hrc hcg
  rw [ew_compute] at h0 h1 h2
  split_ifs at h0
  split_ifs at h1
  split_ifs at h2
  rw [Except.ok.injEq] at h0 h1 h2
  rw [hT0, List.map_map] at h0
  rw [hs1, hT1, List.map_map] at h1
  rw [hs2, hT2, List.map_map] at h2
  have h0b : trapzOpt ((((restOf wave).zip (c.zip g)).filter
      (fun t => lineonly t.1)).map fun t : ℚ × ℚ × ℚ =>
        (t.1, safeDiv (qsub t.2.1 (splineEval (theSpline wave c) t.1))
          (splineEval (theSpline wave c) t.1))) = some e0 := h0
  have h1b : trapzOpt ((((restOf wave).zip (c.zip g)).filter
      (fun t => lineonly t.1)).map fun t : ℚ × ℚ × ℚ =>
        (t.1, safeDiv (qsub (qadd t.2.1 t.2.2)
            (splineEval (theSpline wave c) t.1))
          (splineEval (theSpline wave c) t.1))) = some e1 := h1
  have h2b : trapzOpt ((((restOf wave).zip (c.zip g)).filter
      (fun t => lineonly t.1)).map fun t : ℚ × ℚ × ℚ =>
        (t.1, safeDiv (qsub (qadd t.2.1 (qmul 2 t.2.2))
            (splineEval (theSpline wave c) t.1))
          (splineEval (theSpline wave c) t.1))) = some e2 := h2
  have q0 := trapzOpt_map_eq_trapzQ _ (fun t : ℚ × ℚ × ℚ => t.1)
    (fun t => qsub t.2.1 (splineEval (theSpline wave c) t.1))
    (fun t => splineEval (theSpline wave c) t.1) e0 h0b
  have q1 := trapzOpt_map_eq_trapzQ _ (fun t : ℚ × ℚ × ℚ => t.1)
    (fun t => qsub (qadd t.2.1 t.2.2) (splineEval (theSpline wave c) t.1))
    (fun t => splineEval (theSpline wave c) t.1) e1 h1b
  have q2 := trapzOpt_map_eq_trapzQ _ (fun t : ℚ × ℚ × ℚ => t.1)
    (fun t => qsub (qadd t.2.1 (qmul 2 t.2.2))
      (splineEval (theSpline wave c) t.1))
    (fun t => splineEval (theSpline wave c) t.1) e2 h2b
  have hfun0 : (fun t : ℚ × ℚ × ℚ =>
      ((t.1 : ℚ), qdiv (qsub t.2.1 (splineEval (theSpline wave c) t.1))
        (splineEval (theSpline wave c) t.1))) =
      (fun t : ℚ × ℚ × ℚ => (t.1,
        (fun t : ℚ × ℚ × ℚ => (t.2.1 - splineEval (theSpline wave c) t.1) /
          splineEval (theSpline wave c) t.1) t)) := by
    funext t
    rw [Prod.mk.injEq]
    refine ⟨rfl, ?_⟩
    simp only [qdiv_eq, qsub_eq]
  have hfun1 : (fun t : ℚ × ℚ × ℚ =>
      ((t.1 : ℚ), qdiv (qsub (qadd t.2.1 t.2.2)
          (splineEval (theSpline wave c) t.1))
        (splineEval (theSpline wave c) t.1))) =
      (fun t : ℚ × ℚ × ℚ => (t.1,
        (fun t : ℚ × ℚ × ℚ => (t.2.1 - splineEval (theSpline wave c) t.1) /
          splineEval (theSpline wave c) t.1) t + 1 *
        (fun t : ℚ × ℚ × ℚ => t.2.2 /
          splineEval (theSpline wave c) t.1) t)) := by
    funext t
    rw [Prod.mk.injEq]
    refine ⟨rfl, ?_⟩
    simp only [qdiv_eq, qsub_eq, qadd_eq]
    ring
  have hfun2 : (fun t : ℚ × ℚ × ℚ =>
      ((t.1 : ℚ), qdiv (qsub (qadd t.2.1 (qmul 2 t.2.2))
          (splineEval (theSpline wave c) t.1))
        (splineEval (theSpline wave c) t.1))) =
      (fun t : ℚ × ℚ × ℚ => (t.1,
        (fun t : ℚ × ℚ × ℚ => (t.2.1 - splineEval (theSpline wave c) t.1) /
          splineEval (theSpline wave c) t.1) t + 2 *
        (fun t : ℚ × ℚ × ℚ => t.2.2 /
          splineEval (theSpline wave c) t.1) t)) := by
    funext t
    rw [Prod.mk.injEq]
    refine ⟨rfl, ?_⟩
    simp only [qdiv_eq, qsub_eq, qadd_eq, qmul_eq]
    ring
  rw [hfun0] at q0
  rw [hfun1, trapzQ_map_linear] at q1
  rw [hfun2, trapzQ_map_linear] at q2
  rw [← q0, ← q1, ← q2]
  ring

set_option maxHeartbeats 1600000 in
/-- Witness for ew_affine_in_excess on the waveBump spectrum. -/
theorem ew_affine_in_excess_witness :
    mkRat 10250419 2851438 - mkRat (-385111) 2851438 =
      2 * (mkRat 2466327 1425719 - mkRat (-385111) 2851438) :=
  ew_affine_in_excess waveBump contBump lineBump
    (mkRat (-385111) 2851438) (mkRat 2466327 1425719) (mkRat 10250419 2851438)
    (by decide) (by decide) (by decide) (by decide) (by decide) (by decide)

end SNDust
